import Mathlib

/-!
Verification development for the semantic chunking / semantic sectioning
pipeline of the dsRAG repository.

The pure functions of `dsrag/semantic_chunking/semantic_chunking.py` are
embedded as executable Lean definitions.  The partition repair functions
`partition_sections` and `is_valid_partition` live in
`dsrag/semantic_sectioning.py`, a file whose source is not part of this
snapshot; they are modelled from the written specification and validated
against the unit tests in `tests/unit/test_semantic_sectioning.py`.
-/

/-- A section as produced by the sectioning oracle: a title plus an
inclusive line range.  Mirrors the pydantic `Section` model. -/
structure Section where
  title : String
  start_index : Int
  end_index : Int
deriving Repr, DecidableEq

/-- Default section value used with `List.getD` and friends. -/
def defSection : Section := { title := "", start_index := 0, end_index := 0 }

instance : Inhabited Section := ⟨defSection⟩

/-- Adjacency checker: every adjacent pair of sections satisfies
`next.start_index = current.end_index + 1`. -/
def adjacentOk : List Section → Bool
  | s :: s2 :: rest => (s2.start_index == s.end_index + 1) && adjacentOk (s2 :: rest)
  | _ => true

/-- Modelled from the spec: `is_valid_partition(sections, a, b)` of
`dsrag/semantic_sectioning.py` (absent from this snapshot).  Checks, in
order: the list is non-empty; the first section starts at `a`; the last
section ends at `b`; every section satisfies `start <= end`; every
adjacent pair is gapless and non-overlapping. -/
def is_valid_partition (sections : List Section) (a b : Int) : Bool :=
  match sections with
  | [] => false
  | s0 :: _ =>
    (s0.start_index == a)
    && ((sections.getLastD defSection).end_index == b)
    && sections.all (fun s => decide (s.start_index ≤ s.end_index))
    && adjacentOk sections

/-- An untitled placeholder section spanning `[lo, hi]`, emitted only when
that range is non-empty. -/
def placeholderIf (lo hi : Int) : List Section :=
  if lo ≤ hi then [{ title := "", start_index := lo, end_index := hi }] else []

/-- Modelled from the spec: the single left-to-right repair pass of
`partition_sections` (section 4.2 of the specification), maintaining a
cursor.  A candidate wholly before the cursor is dropped; candidates
fully contained in the current one are absorbed; a following candidate
that extends past the current one invalidates it (its title is lost and
only placeholders are emitted); otherwise the candidate is emitted
unchanged after a gap placeholder.  The gap placeholder
`[cursor, current.start - 1]` is emitted in the invalidation branch as
well, as required by test 7 of the repository unit tests.  The `fuel`
argument makes the recursion structural; it bounds the number of
candidates consumed, and `partition_sections` passes the list length,
which is always sufficient (the out-of-fuel branch is unreachable
whenever `fuel` is at least the list length). -/
def partitionGo (b : Int) : Nat → List Section → Int → List Section
  | _, [], cursor => placeholderIf cursor b
  | 0, _ :: _, _ => []
  | fuel + 1, c :: rest, cursor =>
    if c.end_index < cursor then partitionGo b fuel rest cursor
    else
      let rest2 := rest.dropWhile (fun s =>
        decide (s.start_index ≤ c.end_index) && decide (s.end_index ≤ c.end_index))
      if rest2 ≠ [] ∧ (rest2.headD defSection).start_index ≤ c.end_index ∧
          c.end_index < (rest2.headD defSection).end_index then
        placeholderIf cursor (c.start_index - 1)
          ++ placeholderIf (max cursor c.start_index) ((rest2.headD defSection).start_index - 1)
          ++ partitionGo b fuel rest2 (rest2.headD defSection).start_index
      else
        placeholderIf cursor (c.start_index - 1) ++ c :: partitionGo b fuel rest2 (c.end_index + 1)

/-- Modelled from the spec: `partition_sections(sections, a, b)` of
`dsrag/semantic_sectioning.py` (absent from this snapshot).  Candidates
with `start > end` are dropped (spec step 1), as are candidates starting
beyond `b` (spec section 8: fully out-of-range input collapses to the
placeholder, unit test 11); the survivors are repaired by the cursor
pass. -/
def partition_sections (sections : List Section) (a b : Int) : List Section :=
  let filtered := sections.filter (fun s =>
    decide (s.start_index ≤ s.end_index) && decide (s.start_index ≤ b))
  partitionGo b filtered.length filtered a

/-- `isChain b cursor l` holds when `l` is a gapless, non-overlapping
sequence of well-formed sections starting exactly at `cursor` and ending
exactly at `b`. -/
def isChain (b : Int) : Int → List Section → Bool
  | cursor, [] => cursor == b + 1
  | cursor, s :: rest =>
    (s.start_index == cursor) && decide (s.start_index ≤ s.end_index)
      && isChain b (s.end_index + 1) rest

/-- Python list indexing: non-negative indices address from the front,
negative indices wrap from the back, anything out of bounds is `none`
(an IndexError in the source). -/
def pyIndex (l : List String) (i : Int) : Option String :=
  if 0 ≤ i then l.get? i.toNat
  else if 0 ≤ (l.length : Int) + i then l.get? ((l.length : Int) + i).toNat
  else none

/-- Concatenation of `f i, f (i + 1), ...` over `n` consecutive integer
arguments. -/
def concatMapInt (f : Int → String) : Int → Nat → String
  | _, 0 => ""
  | i, n + 1 => f i ++ concatMapInt f (i + 1) n

/-- Sum of `f i, f (i + 1), ...` over `n` consecutive integer
arguments. -/
def sumMapInt (f : Int → Nat) : Int → Nat → Nat
  | _, 0 => 0
  | i, n + 1 => f i + sumMapInt f (i + 1) n

/-- Newline splitting on a character list: the segments between newline
characters, keeping empty segments, as Python `str.split("\n")` does. -/
def splitNl : List Char → List (List Char)
  | [] => [[]]
  | c :: rest =>
    match splitNl rest with
    | r :: rs => if c = '\n' then [] :: r :: rs else (c :: r) :: rs
    | [] => []

/-- `get_document_lines(document)`: split the raw text on newlines. -/
def get_document_lines (document : String) : List String :=
  (splitNl document.data).map String.mk

/-- `get_target_num_chunks(text, max_characters)` from
`semantic_chunking.py` lines 124-131. -/
def get_target_num_chunks (text : String) (max_characters : Nat) : Nat × Nat :=
  let expected_num_chunks := text.length / max_characters + 1
  if expected_num_chunks < 2 then (1, 2)
  else (expected_num_chunks - 1, expected_num_chunks + 1)

/-- `check_for_fallback_chunking_usage(min_num_chunks, max_num_chunks,
chunks)` from `semantic_chunking.py` lines 133-138; only the length of
`chunks` matters, so the element type is a parameter. -/
def check_for_fallback_chunking_usage {α : Type}
    (min_num_chunks max_num_chunks : Nat) (chunks : List α) : Bool :=
  if chunks.length < min_num_chunks / 2 ∨ max_num_chunks * 2 < chunks.length
  then true
  else false

/-- `get_chunk_content(start_index, end_index, document_lines)` from
`semantic_chunking.py` lines 140-145: the lines of the inclusive range,
each followed by a newline.  An out-of-range read yields the empty
string here, where the source would raise; every use in this
development stays in range. -/
def get_chunk_content (start_index end_index : Int)
    (document_lines : List String) : String :=
  concatMapInt (fun i => (pyIndex document_lines i).getD "" ++ "\n")
    start_index (end_index + 1 - start_index).toNat

/-- The line-numbered rendering `[i] line\n` of an inclusive line range,
as built by the loops in `get_chunks_from_segments` (lines 200-203) and
`get_document_with_lines` (line 57). -/
def annotateLines (document_lines : List String)
    (start_index end_index : Int) : String :=
  concatMapInt
    (fun i => "[" ++ toString i ++ "] " ++ (pyIndex document_lines i).getD "" ++ "\n")
    start_index (end_index + 1 - start_index).toNat

/-- Python slice `l[i:j]` (step one) on a list of lines: negative
endpoints wrap from the back and everything clamps to the list. -/
def pySlice (l : List String) (i j : Int) : List String :=
  let n : Int := l.length
  let i2 := if i < 0 then max 0 (n + i) else i
  let j2 := if j < 0 then max 0 (n + j) else j
  (l.take j2.toNat).drop i2.toNat

/-- The dictionary produced for each section by `get_sections_text`:
title, joined content, and the inclusive start and end line numbers. -/
structure SectionDict where
  title : String
  content : String
  start : Int
  endIndex : Int
deriving Repr, DecidableEq

/-- `get_sections_text(sections, document_lines)` from
`semantic_chunking.py` lines 104-121: the end of section `i` is the next
start minus one (or the last document line for the final section), and
the content is the Python slice `document_lines[start:end]`, whose upper
bound is exclusive exactly as in the source. -/
def get_sections_text (sections : List Section)
    (document_lines : List String) : List SectionDict :=
  match sections with
  | [] => []
  | [s] =>
    [{ title := s.title,
       content := String.intercalate "\n"
         (pySlice document_lines s.start_index ((document_lines.length : Int) - 1)),
       start := s.start_index,
       endIndex := (document_lines.length : Int) - 1 }]
  | s :: s2 :: rest =>
    { title := s.title,
      content := String.intercalate "\n"
        (pySlice document_lines s.start_index (s2.start_index - 1)),
      start := s.start_index,
      endIndex := s2.start_index - 1 }
      :: get_sections_text (s2 :: rest) document_lines

/-- A chunk boundary candidate from the oracle: start line only, as in
the pydantic `Chunk` model. -/
structure Chunk where
  start_index : Int
deriving Repr, DecidableEq

/-- An emitted chunk: title and content. -/
structure ChunkDict where
  title : String
  content : String
deriving Repr, DecidableEq

/-- Materialization of accepted oracle chunk candidates
(`get_chunks_from_segments` lines 238-248): each end is the next start
minus one, and the end of the last candidate is the last line of the
whole document. -/
def chunksText (title : String) (document_lines : List String) :
    List Chunk → List ChunkDict
  | [] => []
  | [c] =>
    [{ title := title,
       content := get_chunk_content c.start_index
         ((document_lines.length : Int) - 1) document_lines }]
  | c :: c2 :: rest =>
    { title := title,
      content := get_chunk_content c.start_index (c2.start_index - 1)
        document_lines }
      :: chunksText title document_lines (c2 :: rest)

/-- The body of the `get_chunks_from_segments` loop for one segment
(`semantic_chunking.py` lines 194-248).  The chunk oracle
(`get_structured_chunks`) and the fallback splitter
(`RecursiveCharacterTextSplitter`) are external collaborators, passed as
functions.  The fallback branch rebuilds the raw segment text with the
same loop as `get_chunk_content`. -/
def processSegment (oracle : String → Int → Nat → Nat → List Chunk)
    (splitter : String → List String) (document_lines : List String)
    (segment : SectionDict) : List ChunkDict :=
  let start_index := segment.start
  let end_index := segment.endIndex
  let title := segment.title
  let document_with_line_numbers :=
    annotateLines document_lines start_index end_index
  if document_with_line_numbers.length < 2000 then
    [{ title := title,
       content := get_chunk_content start_index end_index document_lines }]
  else
    let t := get_target_num_chunks document_with_line_numbers 2000
    let new_chunks := oracle document_with_line_numbers start_index t.1 t.2
    if check_for_fallback_chunking_usage t.1 t.2 new_chunks then
      let document_text := get_chunk_content start_index end_index document_lines
      (splitter document_text).map (fun s => { title := title, content := s })
    else
      chunksText title document_lines new_chunks

/-- `get_chunks_from_segments(segments, document_lines, ...)`: the
concatenation of the per-segment chunk lists. -/
def get_chunks_from_segments (oracle : String → Int → Nat → Nat → List Chunk)
    (splitter : String → List String) (segments : List SectionDict)
    (document_lines : List String) : List ChunkDict :=
  (segments.map (processSegment oracle splitter document_lines)).flatten

/-- A 1000-character line, to push a two-line segment past the 2000
character threshold so the oracle path of `get_chunks_from_segments` is
exercised. -/
def xLine : String := String.mk (List.replicate 1000 'x')

/-- A second 1000-character line. -/
def yLine : String := String.mk (List.replicate 1000 'y')

/-- Sum of the raw line lengths over an inclusive index range; this is
the quantity `character_count` accumulates in
`get_document_with_lines`. -/
def rawLenSum (document_lines : List String) (start_index end_index : Int) : Nat :=
  sumMapInt (fun i => ((pyIndex document_lines i).getD "").length) start_index
    (end_index + 1 - start_index).toNat

/-- The loop of `get_document_with_lines` (`semantic_chunking.py` lines
52-62): iterate line indices, appending `[i] line\n` and accumulating
raw line lengths, stopping at the first index where the count exceeds
the budget or the document ends.  The fuel is the number of indices the
Python `range(start_line, len(document_lines))` yields; running out of
fuel models falling out of the loop with `end_line` never assigned,
which raises in the source. -/
def docLoop (document_lines : List String) (max_characters : Nat) :
    Int → Nat → String → Nat → Option (String × Int)
  | _, 0, _, _ => none
  | i, fuel + 1, acc, cnt =>
    match pyIndex document_lines i with
    | none => none
    | some line =>
      if max_characters < cnt + line.length ∨
          i = (document_lines.length : Int) - 1 then
        some (acc ++ "[" ++ toString i ++ "] " ++ line ++ "\n", i)
      else
        docLoop document_lines max_characters (i + 1) fuel
          (acc ++ "[" ++ toString i ++ "] " ++ line ++ "\n") (cnt + line.length)

/-- `get_document_with_lines(document_lines, start_line,
max_characters)`: returns the line-numbered window text and its last
line, or `none` where the source raises because the loop body never
ran. -/
def get_document_with_lines (document_lines : List String) (start_line : Int)
    (max_characters : Nat) : Option (String × Int) :=
  docLoop document_lines max_characters start_line
    ((document_lines.length : Int) - start_line).toNat "" 0

/-- The window-walking loop of `get_sections` (`semantic_chunking.py`
lines 273-287), with the section oracle (`get_structured_document`)
passed as a function of the window text and its line bounds.  The fuel
is `max_iterations`; running out of fuel models the `for` loop ending
without `break`, after which the source silently falls through to
materialization with whatever sections were accumulated. -/
def sectionsLoop (oracle : String → Int → Int → List Section)
    (document_lines : List String) (max_characters : Nat) :
    Nat → Int → List Section → Option (List Section)
  | 0, _, all_sections => some all_sections
  | fuel + 1, start_line, all_sections =>
    match get_document_with_lines document_lines start_line max_characters with
    | none => none
    | some (document_with_line_numbers, end_line) =>
      let new_sections := oracle document_with_line_numbers start_line end_line
      let all2 := all_sections ++ new_sections
      if (document_lines.length : Int) - 1 ≤ end_line then some all2
      else if 1 < new_sections.length then
        match all2.getLast? with
        | none => none
        | some last =>
          sectionsLoop oracle document_lines max_characters fuel
            last.start_index all2.dropLast
      else
        sectionsLoop oracle document_lines max_characters fuel (end_line + 1)
          all2

/-- `get_sections(document, max_characters, ...)` (`semantic_chunking.py`
lines 254-292): split the document, walk the windows under the hard
iteration cap `2 * (len(document) // max_characters + 1)`, then
materialize the accumulated sections with `get_sections_text`. -/
def get_sections (document : String) (max_characters : Nat)
    (oracle : String → Int → Int → List Section) :
    Option (List SectionDict × List String) :=
  let max_iterations := 2 * (document.length / max_characters + 1)
  let document_lines := get_document_lines document
  match sectionsLoop oracle document_lines max_characters max_iterations 0 [] with
  | none => none
  | some all_sections =>
    some (get_sections_text all_sections document_lines, document_lines)

/-- An oracle that never lets the cursor advance: it always reports two
sections, both starting at the first line of the window, so the walker
restarts every window at the same line. -/
def stallOracle : String → Int → Int → List Section :=
  fun _ start_line _ =>
    [Section.mk "S1" start_line start_line, Section.mk "S2" start_line start_line]

/-- The sections accumulated by `stallOracle` on the document
`"aa\nbb\ncc"` with a one-character window budget, by the time the
18-iteration cap runs out. -/
def stallList : List Section := List.replicate 18 (Section.mk "S1" 0 0)

/-- Dropping a prefix never lengthens a list. -/
theorem dropWhile_length_le {α : Type} (p : α → Bool) (l : List α) :
    (l.dropWhile p).length ≤ l.length := by
  induction l with
  | nil => simp [List.dropWhile]
  | cons x xs ih =>
    simp only [List.dropWhile]
    split
    · exact Nat.le_succ_of_le ih
    · exact Nat.le_refl _

-- Validation of the model against the repository unit tests
-- (TestPartitionSections, cases 1 to 12).
/-- Test 1: a complete partition is returned unchanged. -/
theorem partition_test_complete :
    partition_sections
      [⟨"Introduction", 0, 4⟩, ⟨"Body", 5, 9⟩, ⟨"Conclusion", 10, 14⟩] 0 14 =
      [⟨"Introduction", 0, 4⟩, ⟨"Body", 5, 9⟩, ⟨"Conclusion", 10, 14⟩] := by decide

/-- Test 2: gap at the beginning is filled with a placeholder. -/
theorem partition_test_gap_begin :
    partition_sections [⟨"Body", 5, 9⟩, ⟨"Conclusion", 10, 14⟩] 0 14 =
      [⟨"", 0, 4⟩, ⟨"Body", 5, 9⟩, ⟨"Conclusion", 10, 14⟩] := by decide

/-- Test 3: gap at the end is filled with a placeholder. -/
theorem partition_test_gap_end :
    partition_sections [⟨"Introduction", 0, 4⟩, ⟨"Body", 5, 9⟩] 0 14 =
      [⟨"Introduction", 0, 4⟩, ⟨"Body", 5, 9⟩, ⟨"", 10, 14⟩] := by decide

/-- Test 4: gap in the middle is filled with a placeholder. -/
theorem partition_test_gap_middle :
    partition_sections [⟨"Introduction", 0, 4⟩, ⟨"Conclusion", 10, 14⟩] 0 14 =
      [⟨"Introduction", 0, 4⟩, ⟨"", 5, 9⟩, ⟨"Conclusion", 10, 14⟩] := by decide

/-- Test 5: multiple middle gaps are each filled. -/
theorem partition_test_gaps_multi :
    partition_sections
      [⟨"Introduction", 0, 4⟩, ⟨"Middle", 10, 14⟩, ⟨"Conclusion", 20, 24⟩] 0 24 =
      [⟨"Introduction", 0, 4⟩, ⟨"", 5, 9⟩, ⟨"Middle", 10, 14⟩, ⟨"", 15, 19⟩,
       ⟨"Conclusion", 20, 24⟩] := by decide

/-- Test 6: an overlapping pair keeps the longer-reaching candidate and
degrades the earlier one to a placeholder. -/
theorem partition_test_overlap :
    partition_sections
      [⟨"Introduction", 0, 6⟩, ⟨"Body", 5, 9⟩, ⟨"Conclusion", 10, 14⟩] 0 14 =
      [⟨"", 0, 4⟩, ⟨"Body", 5, 9⟩, ⟨"Conclusion", 10, 14⟩] := by decide

/-- Test 7: a gap followed by an overlapping section produces two separate
placeholders. -/
theorem partition_test_gap_then_overlap :
    partition_sections
      [⟨"Introduction", 0, 3⟩, ⟨"Body", 7, 11⟩, ⟨"Conclusion", 10, 14⟩] 0 14 =
      [⟨"Introduction", 0, 3⟩, ⟨"", 4, 6⟩, ⟨"", 7, 9⟩, ⟨"Conclusion", 10, 14⟩] := by decide

/-- Test 8: overlap resolution followed by a trailing gap. -/
theorem partition_test_overlap_then_gap :
    partition_sections [⟨"Introduction", 0, 6⟩, ⟨"Body", 5, 9⟩] 0 14 =
      [⟨"", 0, 4⟩, ⟨"Body", 5, 9⟩, ⟨"", 10, 14⟩] := by decide

/-- Test 9: a subset candidate is absorbed with no placeholder of its own. -/
theorem partition_test_subset :
    partition_sections [⟨"Introduction", 0, 10⟩, ⟨"Subset", 5, 9⟩] 0 14 =
      [⟨"Introduction", 0, 10⟩, ⟨"", 11, 14⟩] := by decide

/-- Test 10: an exact duplicate is absorbed. -/
theorem partition_test_duplicate :
    partition_sections [⟨"Introduction", 0, 10⟩, ⟨"Introduction", 0, 10⟩] 0 14 =
      [⟨"Introduction", 0, 10⟩, ⟨"", 11, 14⟩] := by decide

/-- Test 11: a candidate entirely outside the range collapses to the
single whole-range placeholder. -/
theorem partition_test_outside :
    partition_sections [⟨"Outside", 15, 20⟩] 0 14 = [⟨"", 0, 14⟩] := by decide

/-- Test 12: a candidate with reversed indices collapses to the single
whole-range placeholder. -/
theorem partition_test_reversed :
    partition_sections [⟨"Invalid", 10, 9⟩] 0 14 = [⟨"", 0, 14⟩] := by decide

-- Validation of `is_valid_partition` against the repository unit tests
-- (TestIsValidPartition, cases 1 to 5).
/-- Validator tests: the valid partition is accepted and each of the four
flawed variants (gap, wrong first start, wrong last end, overlap) is
rejected. -/
theorem is_valid_partition_tests :
    is_valid_partition
        [⟨"Introduction", 0, 4⟩, ⟨"Body", 5, 9⟩, ⟨"Conclusion", 10, 14⟩] 0 14 = true ∧
    is_valid_partition
        [⟨"Introduction", 0, 4⟩, ⟨"Body", 5, 8⟩, ⟨"Conclusion", 10, 14⟩] 0 14 = false ∧
    is_valid_partition
        [⟨"Introduction", 1, 4⟩, ⟨"Body", 5, 9⟩, ⟨"Conclusion", 10, 14⟩] 0 14 = false ∧
    is_valid_partition
        [⟨"Introduction", 0, 4⟩, ⟨"Body", 5, 9⟩, ⟨"Conclusion", 10, 13⟩] 0 14 = false ∧
    is_valid_partition
        [⟨"Introduction", 0, 4⟩, ⟨"Body", 5, 9⟩, ⟨"Conclusion", 8, 14⟩] 0 14 = false := by
  decide

/-- Unfolding step for the validator on a list with at least two
sections. -/
theorem is_valid_partition_cons_cons (s s2 : Section) (rest : List Section)
    (a b : Int) :
    is_valid_partition (s :: s2 :: rest) a b = true ↔
      (s.start_index = a ∧ s.start_index ≤ s.end_index ∧
        s2.start_index = s.end_index + 1 ∧
        is_valid_partition (s2 :: rest) s2.start_index b = true) := by
  simp only [is_valid_partition, List.getLastD_cons, List.all_cons, adjacentOk,
    Bool.and_eq_true, beq_iff_eq, decide_eq_true_eq]
  tauto

/-- The validator accepts a non-empty list exactly when it is a chain
from `a` to `b`. -/
theorem is_valid_partition_iff_chain (l : List Section) (a b : Int) :
    is_valid_partition l a b = true ↔ (l ≠ [] ∧ isChain b a l = true) := by
  induction l generalizing a with
  | nil => simp [is_valid_partition]
  | cons s rest ih =>
    cases rest with
    | nil =>
      simp [is_valid_partition, isChain, adjacentOk]
      constructor <;> intro h <;> omega
    | cons s2 rest2 =>
      rw [is_valid_partition_cons_cons]
      have ih2 := ih (a := s2.start_index)
      simp only [ne_eq, reduceCtorEq, not_false_eq_true, true_and] at ih2
      rw [ih2]
      simp [isChain, and_assoc]

/-- Every member of a chain is well-formed and lies between the cursor
and `b`; the cursor itself never exceeds `b + 1`. -/
theorem isChain_bounds (b : Int) :
    ∀ (l : List Section) (cursor : Int), isChain b cursor l = true →
      cursor ≤ b + 1 ∧ ∀ s ∈ l, cursor ≤ s.start_index ∧
        s.start_index ≤ s.end_index ∧ s.end_index ≤ b := by
  intro l
  induction l with
  | nil =>
    intro cursor h
    simp only [isChain, beq_iff_eq] at h
    exact ⟨le_of_eq h, by simp⟩
  | cons s rest ih =>
    intro cursor h
    simp only [isChain, Bool.and_eq_true, beq_iff_eq, decide_eq_true_eq] at h
    obtain ⟨⟨h1, h2⟩, h3⟩ := h
    obtain ⟨hc, hmem⟩ := ih (s.end_index + 1) h3
    constructor
    · omega
    · intro t ht
      rcases List.mem_cons.mp ht with rfl | ht
      · exact ⟨le_of_eq h1.symm, h2, by omega⟩
      · have := hmem t ht
        constructor
        · omega
        · exact this.2

/-- Prepending an optional placeholder preserves the chain property:
if `l` is a chain from `hi + 1` and the cursor is at most `hi + 1`, the
placeholder (empty when the range is empty) connects `lo` to `l`. -/
theorem isChain_placeholder_append (b lo hi : Int) (l : List Section)
    (hlo : lo ≤ hi + 1) (h : isChain b (hi + 1) l = true) :
    isChain b lo (placeholderIf lo hi ++ l) = true := by
  by_cases hle : lo ≤ hi
  · simp [placeholderIf, hle, isChain, h]
  · have heq : lo = hi + 1 := by omega
    simp [placeholderIf, hle, heq, h]

/-- A whole-range placeholder is a chain whenever the cursor is in range. -/
theorem isChain_placeholder (b cursor : Int) (h : cursor ≤ b + 1) :
    isChain b cursor (placeholderIf cursor b) = true := by
  by_cases hle : cursor ≤ b
  · simp [placeholderIf, hle, isChain]
  · have heq : cursor = b + 1 := by omega
    simp [placeholderIf, hle, isChain, heq]

/-- The head surviving `dropWhile` falsifies the predicate. -/
theorem dropWhile_eq_cons_head_false {α : Type} (p : α → Bool) (l : List α)
    (x : α) (xs : List α) (h : l.dropWhile p = x :: xs) : p x = false := by
  induction l with
  | nil => simp [List.dropWhile] at h
  | cons y ys ih =>
    by_cases hy : p y
    · rw [List.dropWhile_cons_of_pos hy] at h
      exact ih h
    · rw [List.dropWhile_cons_of_neg hy] at h
      cases h
      simpa using hy

/-- Core soundness of the repair pass: starting from a cursor at most
`b + 1`, on a start-sorted candidate list whose members are well-formed,
end within `b`, and start at or after the cursor, the pass emits a chain
from the cursor to `b`, provided the fuel covers the list length. -/
theorem partitionGo_chain (b : Int) :
    ∀ (fuel : Nat) (l : List Section) (cursor : Int),
      l.length ≤ fuel → cursor ≤ b + 1 →
      (∀ s ∈ l, s.start_index ≤ s.end_index ∧ s.end_index ≤ b ∧
        cursor ≤ s.start_index) →
      l.Pairwise (fun x y => x.start_index ≤ y.start_index) →
      isChain b cursor (partitionGo b fuel l cursor) = true := by
  intro fuel
  induction fuel with
  | zero =>
    intro l cursor hlen hcur hmem hsort
    have hnil : l = [] := List.length_eq_zero.mp (Nat.le_zero.mp hlen)
    subst hnil
    exact isChain_placeholder b cursor hcur
  | succ fuel ih =>
    intro l cursor hlen hcur hmem hsort
    cases l with
    | nil => exact isChain_placeholder b cursor hcur
    | cons c rest =>
      have hc := hmem c (List.mem_cons_self c rest)
      have hsortp := List.pairwise_cons.mp hsort
      have hlenr : rest.length ≤ fuel := by
        simp only [List.length_cons] at hlen
        omega
      by_cases hstep2 : c.end_index < cursor
      · have hgo : partitionGo b (fuel + 1) (c :: rest) cursor =
            partitionGo b fuel rest cursor := by
          simp [partitionGo, hstep2]
        rw [hgo]
        exact ih rest cursor hlenr hcur
          (fun s hs => hmem s (List.mem_cons_of_mem c hs)) hsortp.2
      · rcases hdw : rest.dropWhile (fun s =>
            decide (s.start_index ≤ c.end_index) &&
            decide (s.end_index ≤ c.end_index)) with - | ⟨next, rest3⟩
        · have hgo : partitionGo b (fuel + 1) (c :: rest) cursor =
              placeholderIf cursor (c.start_index - 1)
                ++ (c :: partitionGo b fuel [] (c.end_index + 1)) := by
            simp [partitionGo, hstep2, hdw]
          rw [hgo]
          have hchain : isChain b (c.end_index + 1)
              (partitionGo b fuel [] (c.end_index + 1)) = true :=
            ih [] (c.end_index + 1) (by simp) (by omega) (by simp) (by simp)
          have hin : isChain b (c.start_index - 1 + 1)
              (c :: partitionGo b fuel [] (c.end_index + 1)) = true := by
            simp only [isChain, Bool.and_eq_true, beq_iff_eq, decide_eq_true_eq]
            exact ⟨⟨by omega, hc.1⟩, hchain⟩
          exact isChain_placeholder_append b cursor (c.start_index - 1) _
            (by omega) hin
        · have hsub : List.Sublist (next :: rest3) rest := by
            rw [← hdw]
            exact List.dropWhile_sublist _
          have hnextr : next ∈ rest := hsub.subset (List.mem_cons_self next rest3)
          have hnext := hmem next (List.mem_cons_of_mem c hnextr)
          have hcnext : c.start_index ≤ next.start_index := hsortp.1 next hnextr
          have hsort2 : (next :: rest3).Pairwise
              (fun x y => x.start_index ≤ y.start_index) :=
            List.Pairwise.sublist hsub hsortp.2
          have hsort2p := List.pairwise_cons.mp hsort2
          have hlen2 : (next :: rest3).length ≤ fuel := by
            have := dropWhile_length_le (fun s =>
              decide (s.start_index ≤ c.end_index) &&
              decide (s.end_index ≤ c.end_index)) rest
            rw [hdw] at this
            omega
        -- continue below
          by_cases hov : next.start_index ≤ c.end_index ∧ c.end_index < next.end_index
          · have hgo : partitionGo b (fuel + 1) (c :: rest) cursor =
                placeholderIf cursor (c.start_index - 1)
                  ++ (placeholderIf (max cursor c.start_index) (next.start_index - 1)
                    ++ partitionGo b fuel (next :: rest3) next.start_index) := by
              simp [partitionGo, hstep2, hdw, hov, List.append_assoc]
            rw [hgo]
            have hmax : max cursor c.start_index = c.start_index := by omega
            have hR : isChain b next.start_index
                (partitionGo b fuel (next :: rest3) next.start_index) = true := by
              apply ih (next :: rest3) next.start_index hlen2 (by omega)
              · intro s hs
                rcases List.mem_cons.mp hs with rfl | hs3
                · exact ⟨hnext.1, hnext.2.1, le_refl _⟩
                · have hsr := hmem s
                    (List.mem_cons_of_mem c (hsub.subset (List.mem_cons_of_mem next hs3)))
                  have := hsort2p.1 s hs3
                  exact ⟨hsr.1, hsr.2.1, this⟩
              · exact hsort2
            have hmid : isChain b (c.start_index - 1 + 1)
                (placeholderIf (max cursor c.start_index) (next.start_index - 1)
                  ++ partitionGo b fuel (next :: rest3) next.start_index) = true := by
              rw [hmax]
              have : c.start_index - 1 + 1 = c.start_index := by omega
              rw [this]
              apply isChain_placeholder_append b c.start_index (next.start_index - 1)
                _ (by omega)
              have h2 : next.start_index - 1 + 1 = next.start_index := by omega
              rw [h2]
              exact hR
            exact isChain_placeholder_append b cursor (c.start_index - 1) _
              (by omega) hmid
          · have hpnext := dropWhile_eq_cons_head_false _ rest next rest3 hdw
            simp only [Bool.and_eq_false_iff, decide_eq_false_iff_not, not_le] at hpnext
            have hgap : c.end_index < next.start_index := by
              rcases hpnext with h1 | h2
              · exact h1
              · by_contra hle
                exact hov ⟨by omega, h2⟩
            have hgo : partitionGo b (fuel + 1) (c :: rest) cursor =
                placeholderIf cursor (c.start_index - 1)
                  ++ (c :: partitionGo b fuel (next :: rest3) (c.end_index + 1)) := by
              simp [partitionGo, hstep2, hdw, hov]
            rw [hgo]
            have hR : isChain b (c.end_index + 1)
                (partitionGo b fuel (next :: rest3) (c.end_index + 1)) = true := by
              apply ih (next :: rest3) (c.end_index + 1) hlen2 (by omega)
              · intro s hs
                rcases List.mem_cons.mp hs with rfl | hs3
                · exact ⟨hnext.1, hnext.2.1, by omega⟩
                · have hsr := hmem s
                    (List.mem_cons_of_mem c (hsub.subset (List.mem_cons_of_mem next hs3)))
                  have := hsort2p.1 s hs3
                  exact ⟨hsr.1, hsr.2.1, by omega⟩
              · exact hsort2
            have hin : isChain b (c.start_index - 1 + 1)
                (c :: partitionGo b fuel (next :: rest3) (c.end_index + 1)) = true := by
              simp only [isChain, Bool.and_eq_true, beq_iff_eq, decide_eq_true_eq]
              exact ⟨⟨by omega, hc.1⟩, hR⟩
            exact isChain_placeholder_append b cursor (c.start_index - 1) _
              (by omega) hin

/-- The repair pass leaves a chain unchanged. -/
theorem partitionGo_fixed (b : Int) :
    ∀ (fuel : Nat) (l : List Section) (cursor : Int),
      l.length ≤ fuel → isChain b cursor l = true →
      partitionGo b fuel l cursor = l := by
  intro fuel
  induction fuel with
  | zero =>
    intro l cursor hlen hch
    have hnil : l = [] := List.length_eq_zero.mp (Nat.le_zero.mp hlen)
    subst hnil
    simp only [isChain, beq_iff_eq] at hch
    have hnb : ¬ (cursor ≤ b) := by omega
    simp [partitionGo, placeholderIf, hnb]
  | succ fuel ih =>
    intro l cursor hlen hch
    cases l with
    | nil =>
      simp only [isChain, beq_iff_eq] at hch
      have hnb : ¬ (cursor ≤ b) := by omega
      simp [partitionGo, placeholderIf, hnb]
    | cons c rest =>
      simp only [isChain, Bool.and_eq_true, beq_iff_eq, decide_eq_true_eq] at hch
      obtain ⟨⟨hstart, hwf⟩, hchrest⟩ := hch
      have hnst2 : ¬ (c.end_index < cursor) := by omega
      have hlenr : rest.length ≤ fuel := by
        simp only [List.length_cons] at hlen
        omega
      cases rest with
      | nil =>
        have hbend : c.end_index + 1 = b + 1 := by
          simpa [isChain] using hchrest
        have hgo : partitionGo b (fuel + 1) [c] cursor =
            placeholderIf cursor (c.start_index - 1)
              ++ (c :: partitionGo b fuel [] (c.end_index + 1)) := by
          simp [partitionGo, hnst2, List.dropWhile]
        rw [hgo]
        have h1 : ¬ (cursor ≤ c.start_index - 1) := by omega
        have h2 : ¬ (c.end_index + 1 ≤ b) := by omega
        simp [placeholderIf, h1, partitionGo, h2]
      | cons s2 rest2 =>
        have hs2 : s2.start_index = c.end_index + 1 := by
          simp only [isChain, Bool.and_eq_true, beq_iff_eq, decide_eq_true_eq] at hchrest
          exact hchrest.1.1
        have hps2 : (fun s => decide (s.start_index ≤ c.end_index) &&
            decide (s.end_index ≤ c.end_index)) s2 = false := by
          simp only [Bool.and_eq_false_iff, decide_eq_false_iff_not, not_le]
          left
      -- the next section starts one past the current end, hence after it
          omega
        have hdw : (s2 :: rest2).dropWhile (fun s =>
            decide (s.start_index ≤ c.end_index) &&
            decide (s.end_index ≤ c.end_index)) = s2 :: rest2 :=
          List.dropWhile_cons_of_neg (by simp only [hps2]; exact Bool.false_ne_true)
        have hov : ¬ ((s2 :: rest2) ≠ [] ∧ s2.start_index ≤ c.end_index ∧
            c.end_index < s2.end_index) := by
          intro h
          omega
        have hgo : partitionGo b (fuel + 1) (c :: s2 :: rest2) cursor =
            placeholderIf cursor (c.start_index - 1)
              ++ (c :: partitionGo b fuel (s2 :: rest2) (c.end_index + 1)) := by
          simp [partitionGo, hnst2, hdw, hov]
          intro h1 h2
          exact absurd h1 (by omega)
        rw [hgo]
        have h1 : ¬ (cursor ≤ c.start_index - 1) := by omega
        rw [ih (s2 :: rest2) (c.end_index + 1) hlenr hchrest]
        simp [placeholderIf, h1]

/-- Soundness of `partition_sections` on in-range, start-sorted input:
the repaired list is accepted by the validator. -/
theorem partition_sections_valid_aux (a b : Int) (c : List Section)
    (hab : a ≤ b)
    (hin : ∀ s ∈ c, s.start_index ≤ s.end_index →
      a ≤ s.start_index ∧ s.end_index ≤ b)
    (hsort : c.Pairwise fun x y => x.start_index ≤ y.start_index) :
    is_valid_partition (partition_sections c a b) a b = true := by
  simp only [partition_sections]
  have hchain : isChain b a
      (partitionGo b
        (c.filter (fun s => decide (s.start_index ≤ s.end_index) &&
          decide (s.start_index ≤ b))).length
        (c.filter (fun s => decide (s.start_index ≤ s.end_index) &&
          decide (s.start_index ≤ b))) a) = true := by
    apply partitionGo_chain b _ _ a (le_refl _) (by omega)
    · intro s hs
      rw [List.mem_filter] at hs
      obtain ⟨hsc, hp⟩ := hs
      simp only [Bool.and_eq_true, decide_eq_true_eq] at hp
      obtain ⟨hwf, -⟩ := hp
      obtain ⟨h1, h2⟩ := hin s hsc hwf
      exact ⟨hwf, h2, h1⟩
    · exact List.Pairwise.sublist (List.filter_sublist _) hsort
  apply (is_valid_partition_iff_chain _ a b).mpr
  refine ⟨?_, hchain⟩
  intro heq
  rw [heq] at hchain
  simp only [isChain, beq_iff_eq] at hchain
  omega

/-- A list accepted by the validator is a fixed point of
`partition_sections`. -/
theorem partition_sections_fixed_aux (a b : Int) (l : List Section)
    (h : is_valid_partition l a b = true) : partition_sections l a b = l := by
  obtain ⟨hne, hch⟩ := (is_valid_partition_iff_chain l a b).mp h
  have hb := isChain_bounds b l a hch
  have hfil : l.filter (fun s => decide (s.start_index ≤ s.end_index) &&
      decide (s.start_index ≤ b)) = l := by
    apply List.filter_eq_self.mpr
    intro s hs
    have hbs := hb.2 s hs
    simp only [Bool.and_eq_true, decide_eq_true_eq]
    exact ⟨hbs.2.1, by omega⟩
  simp only [partition_sections, hfil]
  exact partitionGo_fixed b l.length l a (le_refl _) hch

/-- Indexed reading of the adjacency checker. -/
theorem adjacentOk_iff_getD (l : List Section) :
    adjacentOk l = true ↔ ∀ i, i + 1 < l.length →
      (l.getD (i + 1) defSection).start_index =
        (l.getD i defSection).end_index + 1 := by
  induction l with
  | nil => simp [adjacentOk]
  | cons s rest ih =>
    cases rest with
    | nil =>
      simp only [adjacentOk, List.length_cons, List.length_nil]
      constructor
      · intro _ i hi
        omega
      · intro _
        trivial
    | cons s2 rest2 =>
      simp only [adjacentOk, Bool.and_eq_true, beq_iff_eq, ih]
      constructor
      · rintro ⟨h1, h2⟩ i hi
        cases i with
        | zero => simpa using h1
        | succ j =>
          have := h2 j (by simp only [List.length_cons] at hi ⊢; omega)
          simpa using this
      · intro h
        constructor
        · simpa using h 0 (by simp only [List.length_cons]; omega)
        · intro j hj
          have := h (j + 1) (by simp only [List.length_cons] at hj ⊢; omega)
          simpa using this

/-- C7: `is_valid_partition(sections, a, b)` returns true exactly when
the list is non-empty, the first section starts at `a`, the last ends at
`b`, every section is well-formed (`start <= end`), and each adjacent
pair satisfies `next.start = current.end + 1`.  The function is a pure
Lean function, so it has no side effects and cannot mutate its input. -/
theorem is_valid_partition_spec (sections : List Section) (a b : Int) :
    is_valid_partition sections a b = true ↔
      (sections ≠ [] ∧
       (sections.headD defSection).start_index = a ∧
       (sections.getLastD defSection).end_index = b ∧
       (∀ s ∈ sections, s.start_index ≤ s.end_index) ∧
       (∀ i, i + 1 < sections.length →
         (sections.getD (i + 1) defSection).start_index =
           (sections.getD i defSection).end_index + 1)) := by
  cases sections with
  | nil => simp [is_valid_partition]
  | cons s rest =>
    simp only [is_valid_partition, Bool.and_eq_true, beq_iff_eq,
      List.all_eq_true, decide_eq_true_eq, adjacentOk_iff_getD,
      List.headD_cons, ne_eq, reduceCtorEq, not_false_eq_true, true_and]
    tauto

/-- C1 (amended): for every range `[a, b]` with `a <= b` and every
candidate list whose well-formed candidates lie inside `[a, b]` and
which is sorted by start index, `partition_sections` returns a list the
validator accepts.  (The function is total, so it cannot raise.) -/
theorem partition_sections_valid_on_sorted_in_range (a b : Int)
    (c : List Section) (hab : a ≤ b)
    (hin : ∀ s ∈ c, s.start_index ≤ s.end_index →
      a ≤ s.start_index ∧ s.end_index ≤ b)
    (hsort : c.Pairwise fun x y => x.start_index ≤ y.start_index) :
    is_valid_partition (partition_sections c a b) a b = true :=
  partition_sections_valid_aux a b c hab hin hsort

/-- Witness for the amended C1 at a concrete input. -/
theorem partition_sections_valid_on_sorted_in_range_witness :
    ((0 : Int) ≤ 14 ∧
      (∀ s ∈ [Section.mk "Body" 5 9, Section.mk "Conclusion" 10 14],
        s.start_index ≤ s.end_index →
          (0 : Int) ≤ s.start_index ∧ s.end_index ≤ 14) ∧
      List.Pairwise (fun x y => x.start_index ≤ y.start_index)
        [Section.mk "Body" 5 9, Section.mk "Conclusion" 10 14]) ∧
    is_valid_partition
      (partition_sections [Section.mk "Body" 5 9, Section.mk "Conclusion" 10 14]
        0 14) 0 14 = true :=
  ⟨⟨by decide, by decide, by decide⟩,
    partition_sections_valid_on_sorted_in_range 0 14 _ (by decide) (by decide)
      (by decide)⟩

/-- C1 counterexample: a single candidate that straddles the upper end
of the range is emitted unchanged, so the result ends past `b` and the
validator rejects it, refuting the claim for ranges with out-of-range
entries. -/
theorem partition_sections_out_of_range_invalid :
    is_valid_partition (partition_sections [Section.mk "T" 10 20] 0 14) 0 14 =
      false := by decide

/-- In-range but unsorted candidates can also defeat the repair: the
overlap-resolution step moves the cursor backwards past an already
emitted placeholder. -/
theorem partition_sections_unsorted_invalid :
    is_valid_partition
      (partition_sections
        [Section.mk "X" 0 2, Section.mk "Y" 4 6, Section.mk "Z" 1 9] 0 9)
      0 9 = false := by decide

/-- C2 (amended): on a range `a <= b` with in-range, start-sorted
candidates, `partition_sections` is idempotent; moreover any list the
validator accepts is returned unchanged. -/
theorem partition_sections_idempotent_on_sorted (a b : Int)
    (c : List Section) (hab : a ≤ b)
    (hin : ∀ s ∈ c, s.start_index ≤ s.end_index →
      a ≤ s.start_index ∧ s.end_index ≤ b)
    (hsort : c.Pairwise fun x y => x.start_index ≤ y.start_index) :
    partition_sections (partition_sections c a b) a b =
        partition_sections c a b ∧
      (is_valid_partition c a b = true → partition_sections c a b = c) :=
  ⟨partition_sections_fixed_aux a b _
      (partition_sections_valid_aux a b c hab hin hsort),
    fun h => partition_sections_fixed_aux a b c h⟩

/-- Witness for the amended C2 at a concrete input. -/
theorem partition_sections_idempotent_on_sorted_witness :
    ((0 : Int) ≤ 14 ∧
      (∀ s ∈ [Section.mk "Introduction" 0 4, Section.mk "Body" 5 9],
        s.start_index ≤ s.end_index →
          (0 : Int) ≤ s.start_index ∧ s.end_index ≤ 14) ∧
      List.Pairwise (fun x y => x.start_index ≤ y.start_index)
        [Section.mk "Introduction" 0 4, Section.mk "Body" 5 9]) ∧
    (partition_sections
        (partition_sections [Section.mk "Introduction" 0 4, Section.mk "Body" 5 9]
          0 14) 0 14 =
      partition_sections [Section.mk "Introduction" 0 4, Section.mk "Body" 5 9]
        0 14 ∧
      (is_valid_partition [Section.mk "Introduction" 0 4, Section.mk "Body" 5 9]
          0 14 = true →
        partition_sections [Section.mk "Introduction" 0 4, Section.mk "Body" 5 9]
            0 14 =
          [Section.mk "Introduction" 0 4, Section.mk "Body" 5 9])) :=
  ⟨⟨by decide, by decide, by decide⟩,
    partition_sections_idempotent_on_sorted 0 14 _ (by decide) (by decide)
      (by decide)⟩

/-- C2 counterexample: with unsorted in-range candidates, applying the
repair twice differs from applying it once, refuting unconditional
idempotence. -/
theorem partition_sections_not_idempotent :
    partition_sections
        (partition_sections
          [Section.mk "X" 0 2, Section.mk "Y" 4 6, Section.mk "Z" 1 9] 0 9)
        0 9 ≠
      partition_sections
        [Section.mk "X" 0 2, Section.mk "Y" 4 6, Section.mk "Z" 1 9] 0 9 := by
  decide

/-- C8: for positive `max_characters`, `get_target_num_chunks` returns
`(1, 2)` when `expected = len(text) / max_characters + 1` is below 2 and
`(expected - 1, expected + 1)` otherwise; in particular `(2, 4)` for the
46-character test string with budget 20 and `(1, 2)` for "short" with
budget 200. -/
theorem get_target_num_chunks_spec (text : String) (max_characters : Nat)
    (_hpos : 0 < max_characters) :
    (text.length / max_characters + 1 < 2 →
      get_target_num_chunks text max_characters = (1, 2)) ∧
    (2 ≤ text.length / max_characters + 1 →
      get_target_num_chunks text max_characters =
        (text.length / max_characters, text.length / max_characters + 2)) ∧
    get_target_num_chunks "This is a random string of a lot of characters" 20 =
      (2, 4) ∧
    get_target_num_chunks "short" 200 = (1, 2) := by
  refine ⟨?_, ?_, by decide, by decide⟩
  · intro h
    simp [get_target_num_chunks, h]
  · intro h
    have hn : ¬ (text.length / max_characters + 1 < 2) := by omega
    simp only [get_target_num_chunks, if_neg hn, Nat.add_sub_cancel]

/-- Witness for C8 at the two concrete test inputs. -/
theorem get_target_num_chunks_spec_witness :
    0 < 20 ∧
    (("This is a random string of a lot of characters".length / 20 + 1 < 2 →
      get_target_num_chunks "This is a random string of a lot of characters" 20 =
        (1, 2)) ∧
    (2 ≤ "This is a random string of a lot of characters".length / 20 + 1 →
      get_target_num_chunks "This is a random string of a lot of characters" 20 =
        ("This is a random string of a lot of characters".length / 20,
         "This is a random string of a lot of characters".length / 20 + 2)) ∧
    get_target_num_chunks "This is a random string of a lot of characters" 20 =
      (2, 4) ∧
    get_target_num_chunks "short" 200 = (1, 2)) :=
  ⟨by decide,
    get_target_num_chunks_spec "This is a random string of a lot of characters"
      20 (by decide)⟩

/-- C9: the fallback decision fires exactly when the chunk count lies
outside the closed interval from `min / 2` to `max * 2`; in particular
true for band `(1, 2)` with 6 chunks and false for `(2, 4)` with 3. -/
theorem check_for_fallback_chunking_usage_spec :
    (∀ (min_num_chunks max_num_chunks : Nat) (chunks : List ChunkDict),
      check_for_fallback_chunking_usage min_num_chunks max_num_chunks chunks =
          true ↔
        ¬ (min_num_chunks / 2 ≤ chunks.length ∧
          chunks.length ≤ max_num_chunks * 2)) ∧
    check_for_fallback_chunking_usage 1 2
      (List.replicate 6 (ChunkDict.mk "" "")) = true ∧
    check_for_fallback_chunking_usage 2 4
      (List.replicate 3 (ChunkDict.mk "" "")) = false := by
  refine ⟨?_, by decide, by decide⟩
  intro mn mx chunks
  by_cases h : chunks.length < mn / 2 ∨ mx * 2 < chunks.length
  · simp only [check_for_fallback_chunking_usage, if_pos h]
    constructor
    · intro _
      omega
    · intro _
      trivial
  · simp only [check_for_fallback_chunking_usage, if_neg h]
    constructor
    · intro hf
      exact absurd hf Bool.false_ne_true
    · intro hc
      exact absurd (by omega) hc

/-- C6: a segment whose line-numbered text is under 2000 characters is
emitted as exactly one chunk carrying the segment title and the whole
section content; the result does not depend on the oracle or the
fallback splitter, so neither is consulted for that segment. -/
theorem small_segment_single_chunk
    (oracle : String → Int → Nat → Nat → List Chunk)
    (splitter : String → List String) (document_lines : List String)
    (pre post : List SectionDict) (segment : SectionDict)
    (hsmall :
      (annotateLines document_lines segment.start segment.endIndex).length <
        2000) :
    get_chunks_from_segments oracle splitter (pre ++ segment :: post)
        document_lines =
      get_chunks_from_segments oracle splitter pre document_lines
        ++ [{ title := segment.title,
              content := get_chunk_content segment.start segment.endIndex
                document_lines }]
        ++ get_chunks_from_segments oracle splitter post document_lines := by
  have hseg : processSegment oracle splitter document_lines segment =
      [{ title := segment.title,
         content := get_chunk_content segment.start segment.endIndex
           document_lines }] := by
    simp [processSegment, hsmall]
  simp [get_chunks_from_segments, hseg]

/-- Witness for C6: a two-line segment well under the threshold. -/
theorem small_segment_single_chunk_witness :
    (annotateLines ["alpha", "beta"] (SectionDict.mk "S" "" 0 1).start
        (SectionDict.mk "S" "" 0 1).endIndex).length < 2000 ∧
    get_chunks_from_segments (fun _ _ _ _ => ([] : List Chunk))
        (fun _ => ([] : List String))
        ([] ++ SectionDict.mk "S" "" 0 1 :: []) ["alpha", "beta"] =
      get_chunks_from_segments (fun _ _ _ _ => ([] : List Chunk))
          (fun _ => ([] : List String)) [] ["alpha", "beta"]
        ++ [{ title := (SectionDict.mk "S" "" 0 1).title,
              content := get_chunk_content (SectionDict.mk "S" "" 0 1).start
                (SectionDict.mk "S" "" 0 1).endIndex ["alpha", "beta"] }]
        ++ get_chunks_from_segments (fun _ _ _ _ => ([] : List Chunk))
            (fun _ => ([] : List String)) [] ["alpha", "beta"] :=
  ⟨by decide,
    small_segment_single_chunk (fun _ _ _ _ => []) (fun _ => [])
      ["alpha", "beta"] [] [] (SectionDict.mk "S" "" 0 1) (by decide)⟩

/-- C3 evaluation: `get_sections_text` reports an inclusive `end` field
but slices the content with an exclusive upper bound, so the line at
`end` is missing from every content (here section A spans lines 0-1 yet
its content is only line 0, and section B spans 2-3 yet its content is
only line 2). -/
theorem get_sections_text_drops_end_line :
    get_sections_text [Section.mk "A" 0 1, Section.mk "B" 2 3]
        ["l0", "l1", "l2", "l3"] =
      [SectionDict.mk "A" "l0" 0 1, SectionDict.mk "B" "l2" 2 3] := by decide

/-- One step of an integer-indexed concatenation over a non-empty
inclusive range. -/
theorem annotateLines_step (document_lines : List String) (i j : Int)
    (h : i ≤ j) :
    annotateLines document_lines i j =
      ("[" ++ toString i ++ "] " ++ (pyIndex document_lines i).getD "" ++ "\n")
        ++ annotateLines document_lines (i + 1) j := by
  unfold annotateLines
  have hn : (j + 1 - i).toNat = (j + 1 - (i + 1)).toNat + 1 := by omega
  rw [hn]
  rfl

/-- An empty inclusive range renders as the empty string. -/
theorem annotateLines_empty (document_lines : List String) (i j : Int)
    (h : j < i) : annotateLines document_lines i j = "" := by
  unfold annotateLines
  have hn : (j + 1 - i).toNat = 0 := by omega
  rw [hn]
  rfl

/-- One step of `get_chunk_content` over a non-empty inclusive range. -/
theorem get_chunk_content_step (document_lines : List String) (i j : Int)
    (h : i ≤ j) :
    get_chunk_content i j document_lines =
      ((pyIndex document_lines i).getD "" ++ "\n")
        ++ get_chunk_content (i + 1) j document_lines := by
  unfold get_chunk_content
  have hn : (j + 1 - i).toNat = (j + 1 - (i + 1)).toNat + 1 := by omega
  rw [hn]
  rfl

/-- `get_chunk_content` of an empty inclusive range is empty. -/
theorem get_chunk_content_empty (document_lines : List String) (i j : Int)
    (h : j < i) : get_chunk_content i j document_lines = "" := by
  unfold get_chunk_content
  have hn : (j + 1 - i).toNat = 0 := by omega
  rw [hn]
  rfl

/-- C4 evaluation: for the segment spanning lines 0-1 of a 4-line
document (the two segment lines are 1000 characters each, so the oracle
path is taken), with accepted oracle chunk starts 0 and 1, the first
chunk ends at the next start minus one, but the last chunk ends at the
last line of the whole document (line 3): its content is the 1005
character rendering of lines 1-3, not the 1001 character rendering of
the segment line range 1-1, so it runs past the segment into the lines
"c" and "d". -/
theorem get_chunks_last_chunk_runs_to_document_end :
    get_chunks_from_segments (fun _ _ _ _ => [Chunk.mk 0, Chunk.mk 1])
        (fun _ => []) [SectionDict.mk "S" "" 0 1] [xLine, yLine, "c", "d"] =
      [ChunkDict.mk "S" (get_chunk_content 0 0 [xLine, yLine, "c", "d"]),
       ChunkDict.mk "S" (get_chunk_content 1 3 [xLine, yLine, "c", "d"])] ∧
    (get_chunk_content 1 3 [xLine, yLine, "c", "d"]).length = 1005 ∧
    (get_chunk_content 1 1 [xLine, yLine, "c", "d"]).length = 1001 := by
  have hpy1 : pyIndex [xLine, yLine, "c", "d"] 1 = some yLine := rfl
  have hpy2 : pyIndex [xLine, yLine, "c", "d"] 2 = some "c" := rfl
  have hpy3 : pyIndex [xLine, yLine, "c", "d"] 3 = some "d" := rfl
  have hxlen : xLine.length = 1000 := by
    show (String.mk (List.replicate 1000 'x')).length = 1000
    rw [String.length_mk, List.length_replicate]
  have hylen : yLine.length = 1000 := by
    show (String.mk (List.replicate 1000 'y')).length = 1000
    rw [String.length_mk, List.length_replicate]
  have hs01 : annotateLines [xLine, yLine, "c", "d"] 0 1 =
      ("[" ++ toString (0 : Int) ++ "] " ++
          (pyIndex [xLine, yLine, "c", "d"] 0).getD "" ++ "\n")
        ++ annotateLines [xLine, yLine, "c", "d"] 1 1 := by
    have h := annotateLines_step [xLine, yLine, "c", "d"] 0 1 (by omega)
    norm_num at h
    exact h
  have hs11 : annotateLines [xLine, yLine, "c", "d"] 1 1 =
      ("[" ++ toString (1 : Int) ++ "] " ++
          (pyIndex [xLine, yLine, "c", "d"] 1).getD "" ++ "\n")
        ++ annotateLines [xLine, yLine, "c", "d"] 2 1 := by
    have h := annotateLines_step [xLine, yLine, "c", "d"] 1 1 (by omega)
    norm_num at h
    exact h
  have hann : annotateLines [xLine, yLine, "c", "d"] 0 1 =
      ("[" ++ toString (0 : Int) ++ "] " ++ xLine ++ "\n")
        ++ (("[" ++ toString (1 : Int) ++ "] " ++ yLine ++ "\n") ++ "") := by
    rw [hs01, hs11, annotateLines_empty _ 2 1 (by omega)]
    rw [show pyIndex [xLine, yLine, "c", "d"] 0 = some xLine from rfl, hpy1]
    simp only [Option.getD_some]
  have hlen : (annotateLines [xLine, yLine, "c", "d"] 0 1).length = 2010 := by
    rw [hann]
    rw [show toString (0 : Int) = "0" from rfl, show toString (1 : Int) = "1" from rfl]
    simp only [String.length_append, String.append_empty, hxlen, hylen]
    decide
  have hbig : ¬ ((annotateLines [xLine, yLine, "c", "d"] 0 1).length < 2000) := by
    rw [hlen]
    decide
  have htarget : get_target_num_chunks
      (annotateLines [xLine, yLine, "c", "d"] 0 1) 2000 = (1, 3) := by
    simp only [get_target_num_chunks, hlen]
    decide
  have hc13 : get_chunk_content 1 3 [xLine, yLine, "c", "d"] =
      ((pyIndex [xLine, yLine, "c", "d"] 1).getD "" ++ "\n")
        ++ get_chunk_content 2 3 [xLine, yLine, "c", "d"] := by
    have h := get_chunk_content_step [xLine, yLine, "c", "d"] 1 3 (by omega)
    norm_num at h
    exact h
  have hc23 : get_chunk_content 2 3 [xLine, yLine, "c", "d"] =
      ((pyIndex [xLine, yLine, "c", "d"] 2).getD "" ++ "\n")
        ++ get_chunk_content 3 3 [xLine, yLine, "c", "d"] := by
    have h := get_chunk_content_step [xLine, yLine, "c", "d"] 2 3 (by omega)
    norm_num at h
    exact h
  have hc33 : get_chunk_content 3 3 [xLine, yLine, "c", "d"] =
      ((pyIndex [xLine, yLine, "c", "d"] 3).getD "" ++ "\n")
        ++ get_chunk_content 4 3 [xLine, yLine, "c", "d"] := by
    have h := get_chunk_content_step [xLine, yLine, "c", "d"] 3 3 (by omega)
    norm_num at h
    exact h
  have hg13 : (get_chunk_content 1 3 [xLine, yLine, "c", "d"]).length = 1005 := by
    rw [hc13, hc23, hc33, get_chunk_content_empty _ 4 3 (by omega),
      hpy1, hpy2, hpy3]
    simp only [Option.getD_some, String.length_append, String.append_empty, hylen]
    decide
  have hc11 : get_chunk_content 1 1 [xLine, yLine, "c", "d"] =
      ((pyIndex [xLine, yLine, "c", "d"] 1).getD "" ++ "\n")
        ++ get_chunk_content 2 1 [xLine, yLine, "c", "d"] := by
    have h := get_chunk_content_step [xLine, yLine, "c", "d"] 1 1 (by omega)
    norm_num at h
    exact h
  have hg11 : (get_chunk_content 1 1 [xLine, yLine, "c", "d"]).length = 1001 := by
    rw [hc11, get_chunk_content_empty _ 2 1 (by omega), hpy1]
    simp only [Option.getD_some, String.length_append, String.append_empty, hylen]
    decide
  refine ⟨?_, hg13, hg11⟩
  have hcheck : check_for_fallback_chunking_usage 1 3 [Chunk.mk 0, Chunk.mk 1] =
      false := by decide
  simp only [get_chunks_from_segments, List.map_cons, List.map_nil,
    List.flatten_cons, List.flatten_nil, List.append_nil, processSegment]
  rw [if_neg hbig, htarget]
  simp only [hcheck, Bool.false_eq_true, if_false, chunksText]
  norm_num

/-- One step of `rawLenSum` over a non-empty inclusive range. -/
theorem rawLenSum_step (document_lines : List String) (i j : Int) (h : i ≤ j) :
    rawLenSum document_lines i j =
      ((pyIndex document_lines i).getD "").length +
        rawLenSum document_lines (i + 1) j := by
  unfold rawLenSum
  have hn : (j + 1 - i).toNat = (j + 1 - (i + 1)).toNat + 1 := by omega
  rw [hn]
  rfl

/-- `rawLenSum` of an empty inclusive range is zero. -/
theorem rawLenSum_empty (document_lines : List String) (i j : Int)
    (h : j < i) : rawLenSum document_lines i j = 0 := by
  unfold rawLenSum
  have hn : (j + 1 - i).toNat = 0 := by omega
  rw [hn]
  rfl

/-- Behaviour of the window loop when the fuel equals the number of
remaining lines: it returns the annotated text up to the first index
where the cumulative raw length exceeds the budget (or the last line),
together with that index. -/
theorem docLoop_spec (document_lines : List String) (max_characters : Nat) :
    ∀ (fuel : Nat) (i : Int) (acc : String) (cnt : Nat),
      0 ≤ i → i + (fuel : Int) = (document_lines.length : Int) → 0 < fuel →
      ∃ text end_line,
        docLoop document_lines max_characters i fuel acc cnt =
            some (text, end_line) ∧
        i ≤ end_line ∧ end_line ≤ (document_lines.length : Int) - 1 ∧
        text = acc ++ annotateLines document_lines i end_line ∧
        (max_characters < cnt + rawLenSum document_lines i end_line ∨
          end_line = (document_lines.length : Int) - 1) ∧
        (∀ j, i ≤ j → j < end_line →
          cnt + rawLenSum document_lines i j ≤ max_characters) := by
  intro fuel
  induction fuel with
  | zero =>
    intro i acc cnt _ _ h0
    exact absurd h0 (by omega)
  | succ fuel ih =>
    intro i acc cnt h0 hsum _
    have hilt : i.toNat < document_lines.length := by omega
    obtain ⟨line, hline⟩ : ∃ line, pyIndex document_lines i = some line :=
      ⟨_, by simp only [pyIndex, if_pos h0]; exact List.get?_eq_get hilt⟩
    have hstep : docLoop document_lines max_characters i (fuel + 1) acc cnt =
        (if max_characters < cnt + line.length ∨
            i = (document_lines.length : Int) - 1 then
          some (acc ++ "[" ++ toString i ++ "] " ++ line ++ "\n", i)
        else docLoop document_lines max_characters (i + 1) fuel
          (acc ++ "[" ++ toString i ++ "] " ++ line ++ "\n")
          (cnt + line.length)) := by
      simp [docLoop, hline]
    have hsame : annotateLines document_lines i i =
        "[" ++ toString i ++ "] " ++ line ++ "\n" := by
      rw [annotateLines_step _ i i (le_refl _),
        annotateLines_empty _ (i + 1) i (by omega), hline]
      simp
    have hsum0 : rawLenSum document_lines i i = line.length := by
      rw [rawLenSum_step _ i i (le_refl _), rawLenSum_empty _ (i + 1) i (by omega),
        hline]
      simp
    by_cases hbrk : max_characters < cnt + line.length ∨
        i = (document_lines.length : Int) - 1
    · refine ⟨acc ++ "[" ++ toString i ++ "] " ++ line ++ "\n", i, ?_,
        le_refl _, by omega, ?_, ?_, ?_⟩
      · rw [hstep, if_pos hbrk]
      · rw [hsame]
        simp [String.append_assoc]
      · rw [hsum0]
        exact hbrk
      · intro j hij hji
        omega
    · obtain ⟨hA, hB⟩ := not_or.mp hbrk
      have hfuelpos : 0 < fuel := by omega
      obtain ⟨text, endl, hres, hle, hub, htext, hbrk2, hall⟩ :=
        ih (i + 1) (acc ++ "[" ++ toString i ++ "] " ++ line ++ "\n")
          (cnt + line.length) (by omega) (by omega) hfuelpos
      refine ⟨text, endl, ?_, by omega, hub, ?_, ?_, ?_⟩
      · rw [hstep, if_neg hbrk]
        exact hres
      · rw [htext, annotateLines_step _ i endl (by omega), hline]
        simp [String.append_assoc]
      · rcases hbrk2 with h | h
        · left
          rw [rawLenSum_step _ i endl (by omega), hline]
          simp only [Option.getD_some]
          omega
        · right
          exact h
      · intro j hij hji
        by_cases hji2 : j = i
        · subst hji2
          rw [hsum0]
          omega
        · have hjgt := hall j (by omega) hji
          rw [rawLenSum_step _ i j (by omega), hline]
          simp only [Option.getD_some]
          omega

/-- C10: under the precondition `0 <= start_line <= len(document_lines)
- 1` the function returns the annotated text of lines `start_line ..
end_line` where `end_line` is the first index at which the cumulative
raw line length exceeds the budget or the document ends; past the last
line index it fails (the source never assigns `end_line` and raises). -/
theorem get_document_with_lines_spec (document_lines : List String)
    (start_line : Int) (max_characters : Nat) :
    (0 ≤ start_line → start_line ≤ (document_lines.length : Int) - 1 →
      ∃ text end_line,
        get_document_with_lines document_lines start_line max_characters =
            some (text, end_line) ∧
        start_line ≤ end_line ∧
        end_line ≤ (document_lines.length : Int) - 1 ∧
        text = annotateLines document_lines start_line end_line ∧
        (max_characters < rawLenSum document_lines start_line end_line ∨
          end_line = (document_lines.length : Int) - 1) ∧
        (∀ j, start_line ≤ j → j < end_line →
          rawLenSum document_lines start_line j ≤ max_characters)) ∧
    ((document_lines.length : Int) - 1 < start_line →
      get_document_with_lines document_lines start_line max_characters =
        none) := by
  constructor
  · intro h0 hle
    have h := docLoop_spec document_lines max_characters
      ((document_lines.length : Int) - start_line).toNat start_line "" 0 h0
      (by omega) (by omega)
    simpa using h
  · intro hgt
    have hz : ((document_lines.length : Int) - start_line).toNat = 0 := by omega
    unfold get_document_with_lines
    rw [hz]
    rfl

/-- Witness for C10: a two-line document, window budget one character. -/
theorem get_document_with_lines_spec_witness :
    ((0 : Int) ≤ 0 ∧ (0 : Int) ≤ ((["ab", "cde"].length : Int) - 1)) ∧
    (∃ text end_line,
      get_document_with_lines ["ab", "cde"] 0 1 = some (text, end_line) ∧
      (0 : Int) ≤ end_line ∧
      end_line ≤ ((["ab", "cde"].length : Int) - 1) ∧
      text = annotateLines ["ab", "cde"] 0 end_line ∧
      (1 < rawLenSum ["ab", "cde"] 0 end_line ∨
        end_line = ((["ab", "cde"].length : Int) - 1)) ∧
      (∀ j, (0 : Int) ≤ j → j < end_line →
        rawLenSum ["ab", "cde"] 0 j ≤ 1)) :=
  ⟨⟨by decide, by decide⟩,
    (get_document_with_lines_spec ["ab", "cde"] 0 1).1 (by decide) (by decide)⟩

/-- C5 (amended): exhausting the hard iteration cap is not surfaced as
an error: the walker returns the sections accumulated so far as a
normal value, and whenever the walker returns a list, `get_sections`
returns its materialization. -/
theorem get_sections_cap_silent_truncation
    (oracle : String → Int → Int → List Section) (document : String)
    (max_characters : Nat) (start_line : Int) (acc : List Section) :
    sectionsLoop oracle (get_document_lines document) max_characters 0
        start_line acc = some acc ∧
    (∀ l, sectionsLoop oracle (get_document_lines document) max_characters
        (2 * (document.length / max_characters + 1)) 0 [] = some l →
      get_sections document max_characters oracle =
        some (get_sections_text l (get_document_lines document),
          get_document_lines document)) := by
  constructor
  · rfl
  · intro l hl
    simp only [get_sections]
    rw [hl]

/-- C5 counterexample: with the stalling oracle the window never reaches
the last line and the cap is exhausted, yet `get_sections` still
returns a value (the truncated, materialized section list) instead of
surfacing a fatal error. -/
theorem get_sections_cap_exhaustion_no_error :
    (get_sections "aa\nbb\ncc" 1 stallOracle).isSome = true := by decide

/-- Witness for the amended C5 on the stalling run. -/
theorem get_sections_cap_silent_truncation_witness :
    sectionsLoop stallOracle (get_document_lines "aa\nbb\ncc") 1
        (2 * ("aa\nbb\ncc".length / 1 + 1)) 0 [] = some stallList ∧
    get_sections "aa\nbb\ncc" 1 stallOracle =
      some (get_sections_text stallList (get_document_lines "aa\nbb\ncc"),
        get_document_lines "aa\nbb\ncc") :=
  ⟨by decide,
    (get_sections_cap_silent_truncation stallOracle "aa\nbb\ncc" 1 0 []).2
      stallList (by decide)⟩
